import Mathlib

/-!
Verification of the elephant online accumulators (`elephant/online.py`) and
spike-train processing (`elephant/spike_train_processing.py`).

Numeric values are modelled as exact rationals (ℚ); numpy arrays of numbers
become lists of rationals; `None` becomes `Option.none`; Python exceptions
become `Except`/`Option` error results.
-/

namespace Elephant

lemma length_cast_ne_zero {α : Type} {l : List α} (h : l ≠ []) :
    ((l.length : ℚ)) ≠ 0 := by
  have hl : l.length ≠ 0 := fun hh => h (List.length_eq_zero.mp hh)
  exact_mod_cast hl

/-! ### MeanOnline (`online.py`, class MeanOnline)

State `{mean, count}`; `units` is omitted (all claims here are about the pure
numeric behaviour of a single-unit stream).  Scalar updates model
`batch_mode=False`, list updates model `batch_mode=True`. -/

structure MeanState where
  mean : Option ℚ
  count : ℕ
deriving DecidableEq, Repr

def MeanState.init : MeanState := ⟨none, 0⟩

/-- `MeanOnline.update` with `batch_mode=False`: `batch_size = 1`,
`new_val_sum = new_val`; first call seeds the mean, later calls do
`mean += (new_val_sum - mean * batch_size) / count`. -/
def MeanState.update (s : MeanState) (v : ℚ) : MeanState :=
  let count := s.count + 1
  match s.mean with
  | none => { mean := some v, count := count }
  | some m => { mean := some (m + (v - m * 1) / (count : ℚ)), count := count }

/-- `MeanOnline.update` with `batch_mode=True`: `batch_size = new_val.shape[0]`,
`new_val_sum = new_val.sum(axis=0)`. -/
def MeanState.updateBatch (s : MeanState) (b : List ℚ) : MeanState :=
  let batchSize := b.length
  let newValSum := b.sum
  let count := s.count + batchSize
  match s.mean with
  | none => { mean := some (newValSum / (batchSize : ℚ)), count := count }
  | some m =>
      { mean := some (m + (newValSum - m * (batchSize : ℚ)) / (count : ℚ)),
        count := count }

/-- `MeanOnline.get_mean` (a deep copy of the stored mean). -/
def MeanState.get_mean (s : MeanState) : Option ℚ := s.mean

/-- One call to `MeanOnline.update`: either a scalar or a batch. -/
inductive MeanUpd where
  | scalar (v : ℚ)
  | batch (b : List ℚ)
deriving DecidableEq, Repr

def MeanUpd.vals : MeanUpd → List ℚ
  | .scalar v => [v]
  | .batch b => b

def MeanState.applyUpd (s : MeanState) : MeanUpd → MeanState
  | .scalar v => s.update v
  | .batch b => s.updateBatch b

def MeanState.applyUpds (s : MeanState) (us : List MeanUpd) : MeanState :=
  us.foldl MeanState.applyUpd s

/-- All individual values seen by a sequence of updates, in order. -/
def updsVals (us : List MeanUpd) : List ℚ := (us.map MeanUpd.vals).flatten

/-- The accumulator state that exact arithmetic predicts after seeing `vals`. -/
def MeanState.goodFor (vals : List ℚ) (s : MeanState) : Prop :=
  s.count = vals.length ∧
  s.mean = if vals = [] then none else some (vals.sum / (vals.length : ℚ))

lemma MeanState.update_none (c : ℕ) (v : ℚ) :
    MeanState.update ⟨none, c⟩ v = ⟨some v, c + 1⟩ := rfl

lemma MeanState.update_some (m : ℚ) (c : ℕ) (v : ℚ) :
    MeanState.update ⟨some m, c⟩ v
      = ⟨some (m + (v - m * 1) / ((c + 1 : ℕ) : ℚ)), c + 1⟩ := rfl

lemma MeanState.updateBatch_none (c : ℕ) (b : List ℚ) :
    MeanState.updateBatch ⟨none, c⟩ b
      = ⟨some (b.sum / (b.length : ℚ)), c + b.length⟩ := rfl

lemma MeanState.updateBatch_some (m : ℚ) (c : ℕ) (b : List ℚ) :
    MeanState.updateBatch ⟨some m, c⟩ b
      = ⟨some (m + (b.sum - m * (b.length : ℚ)) / ((c + b.length : ℕ) : ℚ)),
          c + b.length⟩ := rfl

lemma MeanState.update_good {vals : List ℚ} {s : MeanState} (v : ℚ)
    (h : s.goodFor vals) : (s.update v).goodFor (vals ++ [v]) := by
  obtain ⟨sm, sc⟩ := s
  obtain ⟨hc, hm⟩ := h
  simp only at hc hm
  subst hc
  by_cases hv : vals = []
  · subst hv
    rw [if_pos rfl] at hm
    subst hm
    simp [MeanState.update_none, MeanState.goodFor]
  · have hn : (vals.length : ℚ) ≠ 0 := length_cast_ne_zero hv
    rw [if_neg hv] at hm
    subst hm
    rw [MeanState.update_some]
    refine ⟨by simp, ?_⟩
    rw [if_neg (by simp)]
    simp only [Option.some.injEq]
    rw [List.sum_append, List.length_append]
    push_cast
    field_simp
    ring

lemma MeanState.updateBatch_good {vals : List ℚ} {s : MeanState} {b : List ℚ}
    (hb : b ≠ []) (h : s.goodFor vals) :
    (s.updateBatch b).goodFor (vals ++ b) := by
  obtain ⟨sm, sc⟩ := s
  obtain ⟨hc, hm⟩ := h
  simp only at hc hm
  subst hc
  have hbl : (b.length : ℚ) ≠ 0 := length_cast_ne_zero hb
  by_cases hv : vals = []
  · subst hv
    rw [if_pos rfl] at hm
    subst hm
    rw [List.length_nil, MeanState.updateBatch_none]
    refine ⟨by simp, ?_⟩
    rw [if_neg (by simpa using hb)]
    simp
  · have hn : (vals.length : ℚ) ≠ 0 := length_cast_ne_zero hv
    rw [if_neg hv] at hm
    subst hm
    rw [MeanState.updateBatch_some]
    refine ⟨by simp, ?_⟩
    rw [if_neg (by simp [hv])]
    simp only [Option.some.injEq]
    rw [List.sum_append, List.length_append]
    have hs : (vals.length : ℚ) + (b.length : ℚ) ≠ 0 := by
      have h1 : (0:ℚ) < (vals.length : ℚ) := by
        exact_mod_cast List.length_pos.mpr hv
      have h2 : (0:ℚ) < (b.length : ℚ) := by
        exact_mod_cast List.length_pos.mpr hb
      positivity
    push_cast
    field_simp
    ring

lemma MeanState.applyUpds_good :
    ∀ (us : List MeanUpd) (vals : List ℚ) (s : MeanState),
      (∀ b : List ℚ, MeanUpd.batch b ∈ us → b ≠ []) →
      s.goodFor vals → (s.applyUpds us).goodFor (vals ++ updsVals us) := by
  intro us
  induction us with
  | nil => intro vals s _ h; simpa [MeanState.applyUpds, updsVals] using h
  | cons u rest ih =>
      intro vals s hne h
      have hstep : (s.applyUpd u).goodFor (vals ++ u.vals) := by
        cases u with
        | scalar v => exact MeanState.update_good v h
        | batch b =>
            exact MeanState.updateBatch_good (hne b (List.mem_cons_self _ _)) h
      have hrest := ih (vals ++ u.vals) (s.applyUpd u)
        (fun b hb => hne b (List.mem_cons_of_mem _ hb)) hstep
      simpa [MeanState.applyUpds, updsVals, List.append_assoc] using hrest

lemma MeanState.batch_eq_foldl_some (b : List ℚ) (hb : b ≠ []) :
    ∀ (m : ℚ) (n : ℕ),
      MeanState.updateBatch ⟨some m, n⟩ b = b.foldl MeanState.update ⟨some m, n⟩ := by
  induction b with
  | nil => exact absurd rfl hb
  | cons v b ih =>
      intro m n
      by_cases hb' : b = []
      · subst hb'
        rw [MeanState.updateBatch_some]
        simp only [List.foldl_cons, List.foldl_nil, MeanState.update_some]
        refine congrArg₂ MeanState.mk ?_ (by simp)
        simp
      · have hrec := ih hb' (m + (v - m * 1) / ((n + 1 : ℕ) : ℚ)) (n + 1)
        rw [List.foldl_cons, MeanState.update_some, ← hrec,
          MeanState.updateBatch_some, MeanState.updateBatch_some]
        have hk : (0:ℚ) < (b.length : ℚ) := by
          exact_mod_cast List.length_pos.mpr hb'
        have hn1 : ((n:ℚ) + 1) ≠ 0 := by positivity
        have hd : ((n:ℚ) + 1 + (b.length : ℚ)) ≠ 0 := by positivity
        refine congrArg₂ MeanState.mk ?_ (by simp only [List.length_cons]; omega)
        simp only [Option.some.injEq, List.sum_cons, List.length_cons]
        push_cast
        field_simp
        ring

lemma MeanState.batch_eq_foldl_init (b : List ℚ) (hb : b ≠ []) :
    MeanState.updateBatch MeanState.init b = b.foldl MeanState.update MeanState.init := by
  match b, hb with
  | v :: b, _ =>
    by_cases hb' : b = []
    · subst hb'
      simp only [MeanState.init, MeanState.updateBatch_none, List.foldl_cons,
        List.foldl_nil, MeanState.update_none]
      refine congrArg₂ MeanState.mk ?_ (by simp)
      simp
    · rw [List.foldl_cons]
      show MeanState.updateBatch ⟨none, 0⟩ (v :: b)
        = List.foldl MeanState.update (MeanState.update ⟨none, 0⟩ v) b
      rw [MeanState.update_none, ← MeanState.batch_eq_foldl_some b hb',
        MeanState.updateBatch_none, MeanState.updateBatch_some]
      have hk : (0:ℚ) < (b.length : ℚ) := by
        exact_mod_cast List.length_pos.mpr hb'
      refine congrArg₂ MeanState.mk ?_ (by simp only [List.length_cons]; omega)
      simp only [Option.some.injEq, List.sum_cons, List.length_cons]
      have hd : (0:ℚ) < 1 + (b.length : ℚ) := by positivity
      push_cast
      field_simp
      ring

/-- C2: for every finite sequence of scalar or (nonempty) batch updates to
`MeanOnline`, `get_mean()` is exactly the arithmetic mean of all values seen
so far and `count` is the number of values; moreover feeding one batch equals
feeding the same values one at a time, both from an already-initialized state
`{mean = some m, count = n}` and from the fresh state. -/
theorem C2_mean_accumulator_exact :
    (∀ us : List MeanUpd, (∀ b : List ℚ, MeanUpd.batch b ∈ us → b ≠ []) →
      (MeanState.init.applyUpds us).count = (updsVals us).length ∧
      (MeanState.init.applyUpds us).get_mean =
        (if updsVals us = [] then none
         else some ((updsVals us).sum / ((updsVals us).length : ℚ)))) ∧
    (∀ b : List ℚ, b ≠ [] → ∀ (m : ℚ) (n : ℕ),
      MeanState.updateBatch ⟨some m, n⟩ b = b.foldl MeanState.update ⟨some m, n⟩) ∧
    (∀ b : List ℚ, b ≠ [] →
      MeanState.updateBatch MeanState.init b = b.foldl MeanState.update MeanState.init) := by
  refine ⟨?_, MeanState.batch_eq_foldl_some, MeanState.batch_eq_foldl_init⟩
  intro us hne
  have hinit : MeanState.init.goodFor [] := ⟨rfl, rfl⟩
  have h := MeanState.applyUpds_good us [] MeanState.init hne hinit
  rw [List.nil_append] at h
  exact ⟨h.1, h.2⟩

/-- Witness for C2 at a concrete run: a scalar 1 then a batch [2, 3] give
count 3 and mean 2. -/
theorem C2_witness :
    (MeanState.init.applyUpds [MeanUpd.scalar 1, MeanUpd.batch [2, 3]]).count = 3 ∧
    (MeanState.init.applyUpds [MeanUpd.scalar 1, MeanUpd.batch [2, 3]]).get_mean
      = some 2 := by
  have hne : ∀ b : List ℚ, MeanUpd.batch b ∈ [MeanUpd.scalar 1, MeanUpd.batch [2, 3]] →
      b ≠ [] := by
    intro b hb h0
    subst h0
    simp only [List.mem_cons, List.not_mem_nil, or_false] at hb
    rcases hb with h | h <;> simp at h
  have h := C2_mean_accumulator_exact.1 [MeanUpd.scalar 1, MeanUpd.batch [2, 3]] hne
  have hv : updsVals [MeanUpd.scalar 1, MeanUpd.batch [2, 3]] = [1, 2, 3] := rfl
  rw [hv] at h
  refine ⟨by rw [h.1]; rfl, ?_⟩
  rw [h.2, if_neg (by simp)]
  norm_num

/-! ### VarianceOnline (`online.py`, class VarianceOnline)

Single-value (`batch_mode=False`) updates; state `{mean, count, variance_sum}`.
`get_mean_var` models `get_mean_std` but returns the variance
`variance_sum / count` whose square root the code takes (`std = sqrt(var)`);
the Python `(None, None)` return becomes `none`. -/

structure VarState where
  mean : Option ℚ
  count : ℕ
  variance_sum : ℚ
deriving DecidableEq, Repr

def VarState.init : VarState := ⟨none, 0, 0⟩

/-- `VarianceOnline.update` with `batch_mode=False`: on first call seeds
`mean = 0`, `variance_sum = 0`; then `delta = v - mean`; `count += 1`;
`mean += delta / count`; `variance_sum += delta * (v - mean_new)`. -/
def VarState.update (s : VarState) (v : ℚ) : VarState :=
  let m0 : ℚ := match s.mean with | none => 0 | some m => m
  let vs0 : ℚ := match s.mean with | none => 0 | some _ => s.variance_sum
  let delta := v - m0
  let count := s.count + 1
  let m1 := m0 + delta / (count : ℚ)
  ⟨some m1, count, vs0 + delta * (v - m1)⟩

/-- `VarianceOnline.get_mean_std`, with the standard deviation represented by
the variance under the square root: `std = sqrt(variance_sum / count)` for
`count > 1` (divisor `count - 1` if unbiased), `std = 0` for `count ≤ 1`,
and `(None, None)` (here `none`) when no update has happened. -/
def VarState.get_mean_var (s : VarState) (unbiased : Bool) : Option (ℚ × ℚ) :=
  match s.mean with
  | none => none
  | some m =>
      if 1 < s.count then
        some (m, s.variance_sum / (((if unbiased then s.count - 1 else s.count) : ℕ) : ℚ))
      else some (m, 0)

/-- C5 (amended): once at least one update has happened, a count ≤ 1 yields
standard deviation exactly 0 in both biased and unbiased modes.  (The
never-updated state instead returns `(None, None)`, see the counterexample.) -/
theorem C5_std_zero_when_count_le_one (s : VarState) (u : Bool) (m : ℚ)
    (h1 : s.mean = some m) (h2 : s.count ≤ 1) :
    s.get_mean_var u = some (m, 0) := by
  obtain ⟨sm, sc, sv⟩ := s
  simp only at h1 h2
  subst h1
  simp only [VarState.get_mean_var]
  rw [if_neg (by omega)]

/-- Witness for C5: after exactly one update the reported deviation is 0. -/
theorem C5_witness :
    (VarState.init.update 3).get_mean_var false = some (3, 0) ∧
    (VarState.init.update 3).get_mean_var true = some (3, 0) := by
  have h1 : (VarState.init.update 3).mean = some 3 := by
    simp [VarState.init, VarState.update]
  have h2 : (VarState.init.update 3).count ≤ 1 := by
    simp [VarState.init, VarState.update]
  exact ⟨C5_std_zero_when_count_le_one _ false 3 h1 h2,
    C5_std_zero_when_count_le_one _ true 3 h1 h2⟩

/-- Counterexample for C5 as stated: in the never-updated state (count = 0 ≤ 1)
`get_mean_std` returns `(None, None)`, not a standard deviation of 0. -/
theorem C5_counterexample_uninitialized :
    VarState.init.count ≤ 1 ∧
    VarState.init.get_mean_var false = none ∧
    VarState.init.get_mean_var true = none ∧
    (VarState.init.get_mean_var false).map Prod.snd ≠ some 0 := by
  refine ⟨by decide, rfl, rfl, by simp [VarState.init, VarState.get_mean_var]⟩

/-- C6: feeding 2, 4, 4, 4, 5, 5, 7, 9 one at a time gives exactly mean 5 and
population variance 4, i.e. standard deviation sqrt 4 = 2. -/
theorem C6_variance_fixed_sample :
    (List.foldl VarState.update VarState.init [2, 4, 4, 4, 5, 5, 7, 9]).get_mean_var false
      = some (5, 4) ∧ Real.sqrt 4 = 2 := by
  constructor
  · simp only [List.foldl_cons, List.foldl_nil]
    norm_num [VarState.init, VarState.update, VarState.get_mean_var]
  · rw [show (4:ℝ) = 2 ^ 2 by norm_num]
    exact Real.sqrt_sq (by norm_num)

/-! ### InterSpikeIntervalOnline (`online.py`, class InterSpikeIntervalOnline)

Single-event (`batch_mode=False`) updates.  The histogram array
`current_isi_histogram` (length `num_bins`) is modelled as a function
`ℕ → ℕ`, meaningful at indices `< num_bins`. -/

/-- Bin index assigned by `np.histogram` for one value on the uniform edge grid
`linspace(0, maxv, num_bins + 1)`: values outside `[0, maxv]` fall in no bin,
the right edge belongs to the last bin, and otherwise the bin is the unique
`k` with `k * maxv / num_bins ≤ v < (k+1) * maxv / num_bins`. -/
def histBinIdx (num_bins : ℕ) (maxv : ℚ) (v : ℚ) : Option ℕ :=
  if num_bins = 0 then none
  else if v < 0 ∨ maxv < v then none
  else if v = maxv then some (num_bins - 1)
  else some (⌊v * (num_bins : ℚ) / maxv⌋).toNat

/-- Accumulate one binned value into the histogram (`current_isi_histogram += isi_hist`). -/
def bumpHist (h : ℕ → ℕ) : Option ℕ → (ℕ → ℕ)
  | none => h
  | some k => fun j => if j = k then h j + 1 else h j

structure IsiState where
  bin_size : ℚ
  max_isi_value : ℚ
  num_bins : ℕ
  last_spike_time : Option ℚ
  hist : ℕ → ℕ

/-- `InterSpikeIntervalOnline.__init__`: `num_bins = int(max_isi_value / bin_size)`,
empty histogram, no last event. -/
def IsiState.init (bin_size max_isi_value : ℚ) : IsiState :=
  ⟨bin_size, max_isi_value, (⌊max_isi_value / bin_size⌋).toNat, none, fun _ => 0⟩

/-- `InterSpikeIntervalOnline.update` with `batch_mode=False`: the first event
produces no interval and is recorded as the last event time; a later event `v`
produces the single interval `v - last` which is histogrammed. -/
def IsiState.update (s : IsiState) (v : ℚ) : IsiState :=
  match s.last_spike_time with
  | none => { s with last_spike_time := some v }
  | some last =>
      { s with
        last_spike_time := some v,
        hist := bumpHist s.hist (histBinIdx s.num_bins s.max_isi_value (v - last)) }

/-- The ISI accumulator fed the three events 0, 2, 5 one per call. -/
def c7run (n : ℕ) : IsiState :=
  (((IsiState.init 1 (n : ℚ)).update 0).update 2).update 5

lemma isi_num_bins (n : ℕ) : (IsiState.init 1 (n : ℚ)).num_bins = n := by
  simp [IsiState.init]

lemma histBinIdx_two (n : ℕ) (hn : 4 ≤ n) : histBinIdx n (n : ℚ) 2 = some 2 := by
  have h4 : (4:ℚ) ≤ (n : ℚ) := by exact_mod_cast hn
  rw [histBinIdx, if_neg (by omega), if_neg (by push_neg; constructor <;> linarith),
    if_neg (by intro h; linarith)]
  have hq : (2:ℚ) * (n : ℚ) / (n : ℚ) = 2 := by
    have : (n:ℚ) ≠ 0 := by linarith
    field_simp
  rw [hq]
  norm_num
  decide

lemma histBinIdx_three (n : ℕ) (hn : 4 ≤ n) : histBinIdx n (n : ℚ) 3 = some 3 := by
  have h4 : (4:ℚ) ≤ (n : ℚ) := by exact_mod_cast hn
  rw [histBinIdx, if_neg (by omega), if_neg (by push_neg; constructor <;> linarith),
    if_neg (by intro h; linarith)]
  have hq : (3:ℚ) * (n : ℚ) / (n : ℚ) = 3 := by
    have : (n:ℚ) ≠ 0 := by linarith
    field_simp
  rw [hq]
  norm_num
  decide

/-- C7: with bin width 1 and histogram range `n ≥ 4`, single events at times
0, 2, 5 put one count in the bin of interval 2 and one in the bin of
interval 3 and nothing anywhere else; the first update only records
`last_event_time` and contributes no interval. -/
theorem C7_isi_single_events (n : ℕ) (hn : 4 ≤ n) :
    (c7run n).hist 2 = 1 ∧ (c7run n).hist 3 = 1 ∧
    (∀ j : ℕ, j ≠ 2 → j ≠ 3 → (c7run n).hist j = 0) ∧
    ((IsiState.init 1 (n : ℚ)).update 0).hist = (IsiState.init 1 (n : ℚ)).hist ∧
    ((IsiState.init 1 (n : ℚ)).update 0).last_spike_time = some 0 := by
  have h1 : (IsiState.init 1 (n : ℚ)).update 0
      = ⟨1, (n : ℚ), (IsiState.init 1 (n : ℚ)).num_bins, some 0, fun _ => 0⟩ := rfl
  have hhist : (c7run n).hist
      = bumpHist (bumpHist (fun _ => 0) (histBinIdx n (n:ℚ) 2)) (histBinIdx n (n:ℚ) 3) := by
    show ((((IsiState.init 1 (n : ℚ)).update 0).update 2).update 5).hist = _
    rw [h1, isi_num_bins]
    simp only [IsiState.update, bumpHist]
    norm_num
  rw [hhist, histBinIdx_two n hn, histBinIdx_three n hn]
  refine ⟨by simp [bumpHist], by simp [bumpHist], ?_, rfl, rfl⟩
  intro j hj2 hj3
  simp [bumpHist, hj2, hj3]

/-- Witness for C7 at the concrete histogram range 5. -/
theorem C7_witness :
    (c7run 5).hist 2 = 1 ∧ (c7run 5).hist 3 = 1 ∧ (c7run 5).hist 0 = 0 :=
  ⟨(C7_isi_single_events 5 (by decide)).1,
    (C7_isi_single_events 5 (by decide)).2.1,
    (C7_isi_single_events 5 (by decide)).2.2.1 0 (by decide) (by decide)⟩

/-! ### Spike train processing (`spike_train_processing.py`)

Spike times are exact rationals.  A `neo.SpikeTrain` is a list of times plus
`t_start`/`t_stop`; an arbitrary object passed in the spiketrains list is
either a spike train or something else (`NeoObj.other`), which lets us model
the `isinstance` check of `_check_consistency_of_spiketrainlist`. -/

structure SpikeTrain where
  times : List ℚ
  t_start : ℚ
  t_stop : ℚ
deriving DecidableEq, Repr

inductive NeoObj where
  | st (s : SpikeTrain)
  | other
deriving DecidableEq, Repr

inductive Err where
  | emptyList
  | typeMismatch
  | startMismatch
  | stopMismatch
  | thresholdError
deriving DecidableEq, Repr

/-- The `for spiketrain in spiketrains` loop of
`_check_consistency_of_spiketrainlist` (called with `t_start=t_stop=None`):
each element must be a SpikeTrain and must agree with the first element's
`t_start` and `t_stop`. -/
def checkLoop (first : SpikeTrain) : List NeoObj → Except Err Unit
  | [] => .ok ()
  | .other :: _ => .error .typeMismatch
  | .st s :: rest =>
      if s.t_start ≠ first.t_start then .error .startMismatch
      else if s.t_stop ≠ first.t_stop then .error .stopMismatch
      else checkLoop first rest

/-- `_check_consistency_of_spiketrainlist` with default `t_start`/`t_stop`. -/
def checkConsistency : List NeoObj → Except Err Unit
  | [] => .error .emptyList
  | .other :: _ => .error .typeMismatch
  | l@(.st s :: _) => checkLoop s l

def extractTrains (l : List NeoObj) : List SpikeTrain :=
  l.filterMap (fun x => match x with | .st s => some s | .other => none)

/-- Modelled from the spec: the Binned Spike Matrix collaborator
(`conv.BinnedSpikeTrain`, not part of the sources under verification) bins all
streams jointly on the shared axis of fixed-width bins `bin_size` starting at
the common `t_start`; the bin of a spike at time `t` is `⌊(t - t_start)/bin_size⌋`. -/
def binIdx (t0 bin t : ℚ) : ℤ := ⌊(t - t0) / bin⌋

/-- Modelled from the spec: per-bin total spike count summed across all
streams (`bst.to_sparse_array().sum(axis=0)`), over `numBins` bins. -/
def bincountOf (sts : List SpikeTrain) (t0 bin : ℚ) (numBins : ℕ) : List ℕ :=
  (List.range numBins).map (fun k =>
    (sts.map (fun s => s.times.countP (fun t => decide (binIdx t0 bin t = (k : ℤ))))).sum)

/-- `bincount[i : i + len]` as a list slice. -/
def windowSlice (bc : List ℕ) (i len : ℕ) : List ℕ := (bc.drop i).take len

/-- `np.nonzero(current_window)[0][-1]`: the last index of a nonzero entry. -/
def lastNonzeroIdx (l : List ℕ) : Option ℕ :=
  ((List.range l.length).filter (fun j => l.getD j 0 != 0)).getLast?

/-- The inner `while window_sum > last_window_sum` loop of
`precise_complexity_intervals` (spread > 0 branch), with explicit fuel.
State: `lws` = last_window_sum, `lni` = last_nonzero_index, `ws` = window_sum,
`cw` = current_window.  Returns `(window_sum, last_nonzero_index)` on exit. -/
def growLoop (bc : List ℕ) (i spread : ℕ) : ℕ → ℕ → ℕ → ℕ → List ℕ → Option (ℕ × ℕ)
  | 0, lws, lni, ws, _ => if lws < ws then none else some (ws, lni)
  | fuel + 1, lws, lni, ws, cw =>
      if lws < ws then
        let lni' := (lastNonzeroIdx cw).getD 0
        let cw' := windowSlice bc i (lni' + spread + 1)
        growLoop bc i spread fuel ws lni' cw'.sum cw'
      else some (ws, lni)

/-- One outer-loop step on a nonzero bin `i`: initialize
`last_window_sum = bincount[i]`, `last_nonzero_index = 0`,
`current_window = bincount[i : i + spread + 1]` and run the growth loop. -/
def growWindow (bc : List ℕ) (i spread : ℕ) : Option (ℕ × ℕ) :=
  growLoop bc i spread (bc.sum + 1) (bc.getD i 0) 0
    (windowSlice bc i (spread + 1)).sum (windowSlice bc i (spread + 1))

/-- The outer `while i < len(bincount)` scan (spread > 0 branch), with explicit
fuel.  Produces the list of `(complexity, left bin index, right bin index)`
triples: complexity `window_sum`, left edge bin `i`, right edge bin
`i + last_nonzero_index + 1`. -/
def scanLoop (bc : List ℕ) (spread : ℕ) : ℕ → ℕ → Option (List (ℕ × ℕ × ℕ))
  | fuel, i =>
      if i < bc.length then
        match fuel with
        | 0 => none
        | fuel + 1 =>
            if bc.getD i 0 = 0 then
              scanLoop bc spread fuel (i + 1)
            else
              match growWindow bc i spread with
              | none => none
              | some (ws, lni) =>
                  match scanLoop bc spread fuel (i + lni + 1) with
                  | none => none
                  | some rest => some ((ws, i, i + lni + 1) :: rest)
      else some []

/-- The whole spread > 0 scan with enough fuel for the left-to-right pass. -/
def complexityScan (bc : List ℕ) (spread : ℕ) : Option (List (ℕ × ℕ × ℕ)) :=
  scanLoop bc spread (bc.length + 1) 0

/-- The `(complexity, left bin, right bin)` triples of
`precise_complexity_intervals`: for `spread = 0` every nonzero bin is its own
interval; for `spread > 0` the greedy window scan. -/
def triplesOf (bc : List ℕ) (spread numBins : ℕ) : List (ℕ × ℕ × ℕ) :=
  if spread = 0 then
    (List.range numBins).filterMap (fun k =>
      if bc.getD k 0 = 0 then none else some (bc.getD k 0, k, k + 1))
  else (complexityScan bc spread).getD []

/-- `neo.Epoch`: interval left edges (`times`), `durations`, and the
`complexity` array annotation. -/
structure Epoch where
  times : List ℚ
  durations : List ℚ
  complexity : List ℕ
deriving DecidableEq, Repr

/-- Interval edges from bin indices (`bst.bin_edges[k] = t_start + k * bin`),
shifted back by half a bin (`bin_shift = .5 / sampling_rate`), with the first
left edge clamped to the minimum `t_start`
(`left_edges[0] = min(min_t_start, left_edges[0])`), and
`durations = right_edges - left_edges`. -/
def epochOfTriples (t0 bin minT0 : ℚ) (triples : List (ℕ × ℕ × ℕ)) : Epoch :=
  let left := triples.map (fun tr => t0 + (tr.2.1 : ℚ) * bin - bin / 2)
  let right := triples.map (fun tr => t0 + (tr.2.2 : ℚ) * bin - bin / 2)
  let leftClamped := left.modifyHead (fun x => min minT0 x)
  { times := leftClamped,
    durations := List.zipWith (fun r l => r - l) right leftClamped,
    complexity := triples.map (fun tr => tr.1) }

/-- `min([st.t_start for st in spiketrains])`. -/
def minTStart : List SpikeTrain → ℚ
  | [] => 0
  | s :: rest => rest.foldl (fun a b => min a b.t_start) s.t_start

/-- The computation of `precise_complexity_intervals` after validation:
`bin_size = 1 / sampling_rate`, `numBins` bins covering `[t_start, t_stop)`,
joint bincount, spread-dependent triples, and the epoch construction. -/
def preciseCore (sts : List SpikeTrain) (rate : ℚ) (spread : ℕ) : Epoch :=
  let bin := 1 / rate
  let t0 := match sts with | [] => 0 | s :: _ => s.t_start
  let tStop := match sts with | [] => 0 | s :: _ => s.t_stop
  let numBins := (⌈(tStop - t0) / bin⌉).toNat
  let bc := bincountOf sts t0 bin numBins
  epochOfTriples t0 bin (minTStart sts) (triplesOf bc spread numBins)

/-- `precise_complexity_intervals`: validate the input list, then compute. -/
def preciseComplexityIntervals (l : List NeoObj) (rate : ℚ) (spread : ℕ) :
    Except Err Epoch :=
  match checkConsistency l with
  | .error e => .error e
  | .ok _ => .ok (preciseCore (extractTrains l) rate spread)

/-- `np.searchsorted(a, v)` (side='left') on a sorted array: the number of
elements strictly below `v`. -/
def searchsortedL (l : List ℚ) (v : ℚ) : ℕ := l.countP (fun e => decide (e < v))

/-- `right_edges = complexity_epoch.times + complexity_epoch.durations`. -/
def Epoch.rightEdges (ep : Epoch) : List ℚ :=
  List.zipWith (fun t d => t + d) ep.times ep.durations

/-- `complexity[np.searchsorted(right_edges, t)]`: the complexity annotated on
a spike at time `t` (out-of-range indexing modelled with default 0; claim C10
shows the index stays in range). -/
def complexityAt (ep : Epoch) (t : ℚ) : ℕ :=
  ep.complexity.getD (searchsortedL ep.rightEdges t) 0

/-- numpy boolean-mask indexing `st[mask]`. -/
def applyMask {α : Type} (l : List α) (m : List Bool) : List α :=
  (l.zip m).filterMap (fun p => if p.2 then some p.1 else none)

/-- `detect_synchrofacts`: validate `deletion_threshold`, compute the
complexity epoch, annotate every spike of every train with its interval's
complexity, and (if a threshold is given) keep exactly the spikes whose mask
`complexity < threshold` (inverted if `invert_delete`) is true.  Returns the
epoch and, per train, the (possibly filtered) spike times with their
annotations. -/
def detectSynchrofacts (l : List NeoObj) (rate : ℚ) (spread : ℕ)
    (deletion_threshold : Option ℤ) (invert_delete : Bool) :
    Except Err (Epoch × List (List ℚ × List ℕ)) :=
  let badThr : Bool :=
    match deletion_threshold with
    | none => false
    | some thr => decide (thr ≤ 1)
  if badThr then .error .thresholdError
  else
    match preciseComplexityIntervals l rate spread with
    | .error e => .error e
    | .ok ep =>
        .ok (ep, (extractTrains l).map (fun s =>
          let ann := s.times.map (complexityAt ep)
          match deletion_threshold with
          | none => (s.times, ann)
          | some thr =>
              let mask := ann.map (fun (c : ℕ) => decide ((c : ℤ) < thr))
              let maskInv := if invert_delete then mask.map (fun b => !b) else mask
              (applyMask s.times maskInv, ann)))

/-- C1: the documented worked examples.  Two streams with spikes [1,4,6] ms and
[1,5,8] ms, t_start 0, t_stop 10 ms, sampling rate 1/ms: spread 0 gives
complexities [2,1,1,1,1] at times [0, 3.5, 4.5, 5.5, 7.5] ms with durations
[1.5, 1, 1, 1, 1] ms; spread 1 gives [2,3,1] at [0, 3.5, 7.5] with durations
[1.5, 3, 1]; spread 2 gives [2,4] at [0, 3.5] with durations [1.5, 5]. -/
theorem C1_worked_examples :
    preciseComplexityIntervals
        [.st ⟨[1, 4, 6], 0, 10⟩, .st ⟨[1, 5, 8], 0, 10⟩] 1 0
      = .ok ⟨[0, 7/2, 9/2, 11/2, 15/2], [3/2, 1, 1, 1, 1], [2, 1, 1, 1, 1]⟩ ∧
    preciseComplexityIntervals
        [.st ⟨[1, 4, 6], 0, 10⟩, .st ⟨[1, 5, 8], 0, 10⟩] 1 1
      = .ok ⟨[0, 7/2, 15/2], [3/2, 3, 1], [2, 3, 1]⟩ ∧
    preciseComplexityIntervals
        [.st ⟨[1, 4, 6], 0, 10⟩, .st ⟨[1, 5, 8], 0, 10⟩] 1 2
      = .ok ⟨[0, 7/2], [3/2, 5], [2, 4]⟩ := by
  have hbc : bincountOf [⟨[1, 4, 6], 0, 10⟩, ⟨[1, 5, 8], 0, 10⟩] 0 (1/1) 10
      = [0, 2, 0, 0, 1, 1, 1, 0, 1, 0] := by
    norm_num [bincountOf, binIdx, List.range_succ, List.countP_cons, List.countP_nil]
  have hnb : ((⌈((10:ℚ) - 0) / (1/1)⌉ : ℤ)).toNat = 10 := by
    rw [show ((⌈((10:ℚ) - 0) / (1/1)⌉ : ℤ)) = 10 from by norm_num]
    decide
  have hcore : ∀ (sp : ℕ) (tr : List (ℕ × ℕ × ℕ)),
      triplesOf [0, 2, 0, 0, 1, 1, 1, 0, 1, 0] sp 10 = tr →
      preciseCore [⟨[1, 4, 6], 0, 10⟩, ⟨[1, 5, 8], 0, 10⟩] 1 sp
        = epochOfTriples 0 (1/1) (minTStart [⟨[1, 4, 6], 0, 10⟩, ⟨[1, 5, 8], 0, 10⟩]) tr := by
    intro sp tr htr
    simp only [preciseCore]
    rw [hnb, hbc, htr]
  have hwrap : ∀ (sp : ℕ) (E : Epoch),
      preciseCore [⟨[1, 4, 6], 0, 10⟩, ⟨[1, 5, 8], 0, 10⟩] 1 sp = E →
      preciseComplexityIntervals
          [.st ⟨[1, 4, 6], 0, 10⟩, .st ⟨[1, 5, 8], 0, 10⟩] 1 sp = .ok E := by
    intro sp E hE
    show Except.ok (preciseCore [⟨[1, 4, 6], 0, 10⟩, ⟨[1, 5, 8], 0, 10⟩] 1 sp) = _
    rw [hE]
  refine ⟨hwrap 0 _ ?_, hwrap 1 _ ?_, hwrap 2 _ ?_⟩
  · rw [hcore 0 [(2,1,2),(1,4,5),(1,5,6),(1,6,7),(1,8,9)] (by decide)]
    norm_num [epochOfTriples, List.modifyHead, minTStart]
  · rw [hcore 1 [(2,1,2),(3,4,7),(1,8,9)] (by decide)]
    norm_num [epochOfTriples, List.modifyHead, minTStart]
  · rw [hcore 2 [(2,1,2),(4,4,9)] (by decide)]
    norm_num [epochOfTriples, List.modifyHead, minTStart]

lemma sum_drop_le (bc : List ℕ) (i : ℕ) : (bc.drop i).sum ≤ bc.sum := by
  conv_rhs => rw [← List.take_append_drop i bc]
  rw [List.sum_append]
  omega

lemma sum_windowSlice_le (bc : List ℕ) (i len : ℕ) :
    (windowSlice bc i len).sum ≤ bc.sum := by
  refine le_trans ?_ (sum_drop_le bc i)
  conv_rhs => rw [← List.take_append_drop len (bc.drop i)]
  rw [List.sum_append, windowSlice]
  omega

lemma growLoop_isSome (bc : List ℕ) (i spread : ℕ) :
    ∀ (fuel lws lni : ℕ) (cw : List ℕ),
      cw.sum ≤ bc.sum → bc.sum + 1 ≤ fuel + lws →
      (growLoop bc i spread fuel lws lni cw.sum cw).isSome = true := by
  intro fuel
  induction fuel with
  | zero =>
      intro lws lni cw hsum hfuel
      rw [growLoop, if_neg (by omega)]
      rfl
  | succ fuel ih =>
      intro lws lni cw hsum hfuel
      rw [growLoop]
      by_cases hlt : lws < cw.sum
      · rw [if_pos hlt]
        exact ih cw.sum ((lastNonzeroIdx cw).getD 0) _
          (sum_windowSlice_le bc i _) (by omega)
      · rw [if_neg hlt]
        rfl

lemma growWindow_isSome (bc : List ℕ) (i spread : ℕ) :
    (growWindow bc i spread).isSome = true := by
  rw [growWindow]
  exact growLoop_isSome bc i spread (bc.sum + 1) (bc.getD i 0) 0
    (windowSlice bc i (spread + 1)) (sum_windowSlice_le bc i _) (by omega)

lemma scanLoop_isSome (bc : List ℕ) (spread : ℕ) :
    ∀ (fuel i : ℕ), bc.length ≤ i + fuel →
      (scanLoop bc spread fuel i).isSome = true := by
  intro fuel
  induction fuel with
  | zero =>
      intro i hi
      rw [scanLoop, if_neg (by omega)]
      rfl
  | succ fuel ih =>
      intro i hi
      rw [scanLoop]
      by_cases hlt : i < bc.length
      · rw [if_pos hlt]
        by_cases hz : bc.getD i 0 = 0
        · rw [if_pos hz]
          exact ih (i + 1) (by omega)
        · rw [if_neg hz]
          obtain ⟨p, hp⟩ := Option.isSome_iff_exists.mp (growWindow_isSome bc i spread)
          obtain ⟨ws, lni⟩ := p
          obtain ⟨rest, hrest⟩ := Option.isSome_iff_exists.mp (ih (i + lni + 1) (by omega))
          simp [hp, hrest]
      · rw [if_neg hlt]
        rfl

lemma complexityScan_isSome (bc : List ℕ) (spread : ℕ) :
    (complexityScan bc spread).isSome = true :=
  scanLoop_isSome bc spread (bc.length + 1) 0 (by omega)

/-- C3: for every bin count array and every spread > 0 the greedy
window-growth loop and the outer left-to-right scan of
`precise_complexity_intervals` terminate — the fueled embeddings always
return a result within the stated fuel (the inner loop only recurses while
the window sum strictly grows, so `total + 1` steps suffice; the outer scan
advances by at least one bin per step) — and the interval triples are
therefore a total function of the input. -/
theorem C3_scan_terminates (bincount : List ℕ) (spread : ℕ) (h : 0 < spread) :
    (∀ i : ℕ, (growWindow bincount i spread).isSome = true) ∧
    (complexityScan bincount spread).isSome = true ∧
    (∃ tr : List (ℕ × ℕ × ℕ),
      complexityScan bincount spread = some tr ∧
      ∀ numBins : ℕ, triplesOf bincount spread numBins = tr) := by
  refine ⟨fun i => growWindow_isSome bincount i spread,
    complexityScan_isSome bincount spread, ?_⟩
  obtain ⟨tr, htr⟩ :=
    Option.isSome_iff_exists.mp (complexityScan_isSome bincount spread)
  refine ⟨tr, htr, fun numBins => ?_⟩
  rw [triplesOf, if_neg (by omega), htr]
  rfl

/-- Witness for C3 at a concrete bincount and spread. -/
theorem C3_witness : (complexityScan [1, 0, 2] 1).isSome = true :=
  (C3_scan_terminates [1, 0, 2] 1 (by decide)).2.1

lemma checkLoop_ok {first : SpikeTrain} :
    ∀ {l : List NeoObj}, checkLoop first l = .ok () →
      ∀ x ∈ l, ∃ s : SpikeTrain,
        x = .st s ∧ s.t_start = first.t_start ∧ s.t_stop = first.t_stop := by
  intro l
  induction l with
  | nil => intro _ x hx; cases hx
  | cons a rest ih =>
      intro h x hx
      cases a with
      | other => simp [checkLoop] at h
      | st s =>
          rw [checkLoop] at h
          by_cases h1 : s.t_start ≠ first.t_start
          · rw [if_pos h1] at h; cases h
          · rw [if_neg h1] at h
            by_cases h2 : s.t_stop ≠ first.t_stop
            · rw [if_pos h2] at h; cases h
            · rw [if_neg h2] at h
              rcases List.mem_cons.mp hx with hx | hx
              · subst hx
                exact ⟨s, rfl, not_not.mp h1, not_not.mp h2⟩
              · exact ih h x hx

lemma checkConsistency_ok {l : List NeoObj} (h : checkConsistency l = .ok ()) :
    ∃ (f : SpikeTrain) (rest : List NeoObj), l = .st f :: rest ∧
      ∀ x ∈ l, ∃ s : SpikeTrain,
        x = .st s ∧ s.t_start = f.t_start ∧ s.t_stop = f.t_stop := by
  match l with
  | [] => simp [checkConsistency] at h
  | .other :: rest => simp [checkConsistency] at h
  | .st f :: rest =>
      exact ⟨f, rest, rfl, checkLoop_ok h⟩

/-- C8: an empty stream list, a non-SpikeTrain element, or two streams that
disagree on `t_start` or `t_stop` make `precise_complexity_intervals` raise
before any interval is computed. -/
theorem C8_invalid_input_errors (l : List NeoObj) (rate : ℚ) (spread : ℕ)
    (h : l = [] ∨ NeoObj.other ∈ l ∨
      ∃ sa sb : SpikeTrain, NeoObj.st sa ∈ l ∧ NeoObj.st sb ∈ l ∧
        (sa.t_start ≠ sb.t_start ∨ sa.t_stop ≠ sb.t_stop)) :
    ∃ e : Err, preciseComplexityIntervals l rate spread = .error e := by
  cases hc : checkConsistency l with
  | error e =>
      refine ⟨e, ?_⟩
      simp only [preciseComplexityIntervals]
      rw [hc]
  | ok u =>
      cases u
      exfalso
      obtain ⟨f, rest, hl, hall⟩ := checkConsistency_ok hc
      rcases h with h | h | h
      · rw [h] at hl; cases hl
      · obtain ⟨s, hs, -, -⟩ := hall _ h
        cases hs
      · obtain ⟨sa, sb, hma, hmb, hne⟩ := h
        obtain ⟨s1, hs1, ha1, ha2⟩ := hall _ hma
        obtain ⟨s2, hs2, hb1, hb2⟩ := hall _ hmb
        cases hs1
        cases hs2
        rcases hne with hne | hne
        · exact hne (ha1.trans hb1.symm)
        · exact hne (ha2.trans hb2.symm)

/-- Witness for C8 at the empty list. -/
theorem C8_witness : ∃ e : Err, preciseComplexityIntervals [] 1 0 = .error e :=
  C8_invalid_input_errors [] 1 0 (Or.inl rfl)

lemma checkLoop_ne_thresholdError (first : SpikeTrain) :
    ∀ l : List NeoObj, checkLoop first l ≠ .error .thresholdError := by
  intro l
  induction l with
  | nil => simp [checkLoop]
  | cons a rest ih =>
      cases a with
      | other => simp [checkLoop]
      | st s =>
          rw [checkLoop]
          split_ifs with h1 h2
          · simp
          · simp
          · exact ih

lemma checkConsistency_ne_thresholdError (l : List NeoObj) :
    checkConsistency l ≠ .error .thresholdError := by
  match l with
  | [] => simp [checkConsistency]
  | .other :: rest => simp [checkConsistency]
  | .st f :: rest => exact checkLoop_ne_thresholdError f _

lemma preciseComplexityIntervals_error {l : List NeoObj} {rate : ℚ} {spread : ℕ}
    {e : Err} (h : preciseComplexityIntervals l rate spread = .error e) :
    checkConsistency l = .error e := by
  rw [preciseComplexityIntervals] at h
  cases hc : checkConsistency l with
  | error e' => rw [hc] at h; simpa using h
  | ok u => rw [hc] at h; simp at h

/-- C9: `detect_synchrofacts` rejects every `deletion_threshold ≤ 1` with the
threshold error before any computation; `deletion_threshold = None` and every
threshold ≥ 2 pass this validation (any later error is a stream-consistency
error, never the threshold error). -/
theorem C9_threshold_validation (l : List NeoObj) (rate : ℚ) (spread : ℕ)
    (inv : Bool) (t : ℤ) :
    (t ≤ 1 → detectSynchrofacts l rate spread (some t) inv = .error .thresholdError) ∧
    (2 ≤ t → detectSynchrofacts l rate spread (some t) inv ≠ .error .thresholdError) ∧
    detectSynchrofacts l rate spread none inv ≠ .error .thresholdError := by
  refine ⟨?_, ?_, ?_⟩
  · intro ht
    simp only [detectSynchrofacts]
    rw [if_pos (by simpa using ht)]
  · intro ht
    simp only [detectSynchrofacts]
    rw [if_neg (by simp; omega)]
    cases hp : preciseComplexityIntervals l rate spread with
    | error e =>
        simp only [ne_eq, Except.error.injEq]
        intro he
        subst he
        exact checkConsistency_ne_thresholdError l (preciseComplexityIntervals_error hp)
    | ok ep => simp
  · simp only [detectSynchrofacts]
    rw [if_neg (by simp)]
    cases hp : preciseComplexityIntervals l rate spread with
    | error e =>
        simp only [ne_eq, Except.error.injEq]
        intro he
        subst he
        exact checkConsistency_ne_thresholdError l (preciseComplexityIntervals_error hp)
    | ok ep => simp

/-- Witness for C9: threshold 1 is rejected. -/
theorem C9_witness :
    detectSynchrofacts [] 1 0 (some 1) false = .error .thresholdError :=
  (C9_threshold_validation [] 1 0 false 1).1 (by decide)

/-- The per-spike keep decision of `detect_synchrofacts`:
`mask = complexity_per_spike < deletion_threshold`, inverted when
`invert_delete`. -/
def keepPred (ep : Epoch) (thr : ℤ) (inv : Bool) (tm : ℚ) : Bool :=
  if inv then !(decide ((complexityAt ep tm : ℤ) < thr))
  else decide ((complexityAt ep tm : ℤ) < thr)

lemma applyMask_map {α : Type} (p : α → Bool) :
    ∀ l : List α, applyMask l (l.map p) = l.filter p := by
  intro l
  induction l with
  | nil => rfl
  | cons a t ih =>
      simp only [applyMask, List.map_cons, List.zip_cons_cons, List.filterMap_cons]
      cases hpa : p a
      · simpa [applyMask, List.filter_cons, hpa] using ih
      · simpa [applyMask, List.filter_cons, hpa] using ih

lemma length_eq_countP_add_not {α : Type} (p : α → Bool) :
    ∀ l : List α, l.length = l.countP p + l.countP (fun a => !(p a)) := by
  intro l
  induction l with
  | nil => rfl
  | cons a t ih =>
      cases hpa : p a <;> simp [List.countP_cons, hpa, ih] <;> omega

lemma sum_map_eq_add {α : Type} (f g h : α → ℕ) :
    ∀ l : List α, (∀ x ∈ l, f x = g x + h x) →
      (l.map f).sum = (l.map g).sum + (l.map h).sum := by
  intro l
  induction l with
  | nil => intro _; rfl
  | cons a t ih =>
      intro hl
      simp only [List.map_cons, List.sum_cons]
      rw [hl a (List.mem_cons_self a t), ih (fun x hx => hl x (List.mem_cons_of_mem a hx))]
      omega

lemma zip_self_map {α β : Type} (f : α → β) :
    ∀ l : List α, l.zip (l.map f) = l.map (fun a => (a, f a)) := by
  intro l
  induction l with
  | nil => rfl
  | cons a t ih => simp [List.zip_cons_cons, ih]

lemma detect_ok_inv {l : List NeoObj} {rate : ℚ} {spread : ℕ} {thr : ℤ}
    {inv : Bool} {ep : Epoch} {out : List (List ℚ × List ℕ)}
    (h : detectSynchrofacts l rate spread (some thr) inv = .ok (ep, out)) :
    out = (extractTrains l).map (fun s =>
      let ann := s.times.map (complexityAt ep)
      let mask := ann.map (fun (c : ℕ) => decide ((c : ℤ) < thr))
      let maskInv := if inv then mask.map (fun b => !b) else mask
      (applyMask s.times maskInv, ann)) := by
  rw [detectSynchrofacts] at h
  by_cases hbad : decide (thr ≤ 1) = true
  · rw [if_pos hbad] at h
    cases h
  · rw [if_neg hbad] at h
    cases hp : preciseComplexityIntervals l rate spread with
    | error e => rw [hp] at h; cases h
    | ok ep' =>
        rw [hp] at h
        simp only [Except.ok.injEq, Prod.mk.injEq] at h
        obtain ⟨hep, hout⟩ := h
        subst hep
        exact hout.symm

/-- C4: with a deletion threshold t and `invert_delete = False`,
`detect_synchrofacts` replaces each stream by exactly the subsequence of its
spikes whose annotated complexity is < t (with `invert_delete = True`, by
those with complexity ≥ t); the kept spikes are a subsequence (order
preserved), and the total spike count over all streams drops by exactly the
number of spikes failing the keep predicate. -/
theorem C4_deletion_filters (l : List NeoObj) (rate : ℚ) (spread : ℕ)
    (thr : ℤ) (inv : Bool) (ep : Epoch) (out : List (List ℚ × List ℕ))
    (h : detectSynchrofacts l rate spread (some thr) inv = .ok (ep, out)) :
    out.map Prod.fst
      = (extractTrains l).map (fun s => s.times.filter (keepPred ep thr inv)) ∧
    (∀ pr ∈ (extractTrains l).zip (out.map Prod.fst),
      List.Sublist pr.2 pr.1.times) ∧
    ((extractTrains l).map (fun s => s.times.length)).sum
      = ((out.map Prod.fst).map List.length).sum
        + ((extractTrains l).map (fun s =>
            s.times.countP (fun tm => !(keepPred ep thr inv tm)))).sum := by
  have hout := detect_ok_inv h
  have hmaps : out.map Prod.fst
      = (extractTrains l).map (fun s => s.times.filter (keepPred ep thr inv)) := by
    rw [hout, List.map_map]
    refine List.map_congr_left (fun s _ => ?_)
    simp only [Function.comp]
    have hm : (s.times.map (complexityAt ep)).map (fun (c : ℕ) => decide ((c : ℤ) < thr))
        = s.times.map (fun tm => decide ((complexityAt ep tm : ℤ) < thr)) := by
      rw [List.map_map]
      rfl
    cases inv with
    | false =>
        rw [if_neg (by simp), hm]
        exact applyMask_map _ s.times
    | true =>
        rw [if_pos rfl, hm, List.map_map]
        exact applyMask_map _ s.times
  refine ⟨hmaps, ?_, ?_⟩
  · intro pr hpr
    rw [hmaps, zip_self_map] at hpr
    obtain ⟨s, hs, hpr'⟩ := List.mem_map.mp hpr
    subst hpr'
    exact List.filter_sublist _
  · rw [hmaps, List.map_map]
    refine sum_map_eq_add _ _ _ (extractTrains l) (fun s _ => ?_)
    simp only [Function.comp]
    rw [← List.countP_eq_length_filter]
    exact length_eq_countP_add_not (keepPred ep thr inv) s.times

/-- Witness for C4 at a concrete run: one stream with a single spike at 0,
threshold 2, no inversion — the spike (complexity 1 < 2) is kept. -/
theorem C4_witness :
    [([(0:ℚ)], [1])].map Prod.fst
      = (extractTrains [.st (⟨[0], 0, 1⟩ : SpikeTrain)]).map
          (fun s => s.times.filter (keepPred ⟨[-(1/2)], [1], [1]⟩ 2 false)) := by
  have hp : preciseComplexityIntervals [.st ⟨[0], 0, 1⟩] 1 1
      = .ok ⟨[-(1/2)], [1], [1]⟩ := by
    have hbc : bincountOf [⟨[0], 0, 1⟩] 0 (1/1) 1 = [1] := by
      norm_num [bincountOf, binIdx, List.range_succ, List.countP_cons, List.countP_nil]
    have hnb : ((⌈((1:ℚ) - 0) / (1/1)⌉ : ℤ)).toNat = 1 := by
      rw [show ((⌈((1:ℚ) - 0) / (1/1)⌉ : ℤ)) = 1 from by norm_num]
      decide
    have htr : triplesOf [1] 1 1 = [(1, 0, 1)] := by decide
    show Except.ok (preciseCore [⟨[0], 0, 1⟩] 1 1) = _
    simp only [preciseCore]
    rw [hnb, hbc, htr]
    norm_num [epochOfTriples, List.modifyHead, minTStart]
  have h : detectSynchrofacts [.st ⟨[0], 0, 1⟩] 1 1 (some 2) false
      = .ok (⟨[-(1/2)], [1], [1]⟩, [([0], [1])]) := by
    simp only [detectSynchrofacts]
    rw [if_neg (by decide), hp]
    norm_num [extractTrains, complexityAt, searchsortedL, Epoch.rightEdges,
      applyMask, List.countP_cons, List.countP_nil, List.filterMap_cons,
      List.filterMap_nil, Function.comp, List.zip_cons_cons, List.zip_nil_right,
      List.zipWith_cons_cons, List.zipWith_nil_right, List.getD_cons_zero,
      List.getD_cons_succ, List.map_cons, List.map_nil]
  exact (C4_deletion_filters [.st ⟨[0], 0, 1⟩] 1 1 2 false
    ⟨[-(1/2)], [1], [1]⟩ [([0], [1])] h).1

lemma zipWith_add_sub :
    ∀ (a b : List ℚ), a.length = b.length →
      List.zipWith (fun t d => t + d) a (List.zipWith (fun r l => r - l) b a) = b := by
  intro a
  induction a with
  | nil =>
      intro b hb
      cases b
      · rfl
      · cases hb
  | cons x a ih =>
      intro b hb
      cases b with
      | nil => cases hb
      | cons y b =>
          simp only [List.zipWith_cons_cons, List.cons.injEq]
          exact ⟨by ring, ih b (by simpa using hb)⟩

lemma rightEdges_epochOfTriples (t0 bin minT0 : ℚ) (triples : List (ℕ × ℕ × ℕ)) :
    (epochOfTriples t0 bin minT0 triples).rightEdges
      = triples.map (fun tr => t0 + (tr.2.2 : ℚ) * bin - bin / 2) := by
  rw [Epoch.rightEdges, epochOfTriples]
  exact zipWith_add_sub _ _ (by simp [List.length_modifyHead])

lemma complexity_length_epochOfTriples (t0 bin minT0 : ℚ)
    (triples : List (ℕ × ℕ × ℕ)) :
    (epochOfTriples t0 bin minT0 triples).complexity.length = triples.length := by
  simp [epochOfTriples]

lemma countP_lt_length_of_exists {l : List ℚ} {p : ℚ → Bool}
    (h : ∃ e ∈ l, ¬ p e = true) : l.countP p < l.length := by
  refine lt_of_le_of_ne (List.countP_le_length p) (fun heq => ?_)
  obtain ⟨e, he, hpe⟩ := h
  exact hpe (List.countP_eq_length.mp heq e he)

lemma nat_mem_le_sum : ∀ (l : List ℕ), ∀ x ∈ l, x ≤ l.sum := by
  intro l
  induction l with
  | nil => intro x hx; cases hx
  | cons a t ih =>
      intro x hx
      rcases List.mem_cons.mp hx with hx | hx
      · subst hx; simp [List.sum_cons]
      · have := ih x hx
        simp only [List.sum_cons]
        omega

lemma bincountOf_getD_pos {sts : List SpikeTrain} {t0 bin : ℚ} {numBins : ℕ}
    {s : SpikeTrain} (hs : s ∈ sts) {t : ℚ} (ht : t ∈ s.times)
    {k : ℕ} (hk : binIdx t0 bin t = (k : ℤ)) (hkn : k < numBins) :
    (bincountOf sts t0 bin numBins).getD k 0 ≠ 0 := by
  have hget : (bincountOf sts t0 bin numBins).getD k 0
      = (sts.map (fun s =>
          s.times.countP (fun t => decide (binIdx t0 bin t = (k : ℤ))))).sum := by
    rw [bincountOf, List.getD_eq_getElem?_getD, List.getElem?_map,
      List.getElem?_range hkn]
    rfl
  rw [hget]
  have hcount : 0 < s.times.countP (fun t => decide (binIdx t0 bin t = (k : ℤ))) :=
    List.countP_pos_iff.mpr ⟨t, ht, by simpa using hk⟩
  have hmem : s.times.countP (fun t => decide (binIdx t0 bin t = (k : ℤ)))
      ∈ sts.map (fun s =>
          s.times.countP (fun t => decide (binIdx t0 bin t = (k : ℤ)))) :=
    List.mem_map_of_mem _ hs
  have := nat_mem_le_sum _ _ hmem
  omega

lemma bincountOf_length (sts : List SpikeTrain) (t0 bin : ℚ) (numBins : ℕ) :
    (bincountOf sts t0 bin numBins).length = numBins := by
  simp [bincountOf]

lemma triplesOf_zero_covers {bc : List ℕ} {numBins k : ℕ}
    (hk : k < numBins) (hz : bc.getD k 0 ≠ 0) :
    (bc.getD k 0, k, k + 1) ∈ triplesOf bc 0 numBins := by
  rw [triplesOf, if_pos rfl]
  exact List.mem_filterMap.mpr ⟨k, List.mem_range.mpr hk, by rw [if_neg hz]⟩

lemma scanLoop_covers (bc : List ℕ) (spread : ℕ) :
    ∀ (fuel i : ℕ) (tr : List (ℕ × ℕ × ℕ)), scanLoop bc spread fuel i = some tr →
      ∀ k, i ≤ k → k < bc.length → bc.getD k 0 ≠ 0 →
        ∃ p ∈ tr, k < p.2.2 := by
  intro fuel
  induction fuel with
  | zero =>
      intro i tr h k hik hk _
      rw [scanLoop] at h
      by_cases hlt : i < bc.length
      · rw [if_pos hlt] at h; cases h
      · omega
  | succ fuel ih =>
      intro i tr h k hik hk hkz
      rw [scanLoop] at h
      by_cases hlt : i < bc.length
      · rw [if_pos hlt] at h
        by_cases hz : bc.getD i 0 = 0
        · rw [if_pos hz] at h
          rcases Nat.eq_or_lt_of_le hik with hik' | hik'
          · subst hik'; exact absurd hz hkz
          · exact ih (i + 1) tr h k hik' hk hkz
        · rw [if_neg hz] at h
          obtain ⟨p, hp⟩ :=
            Option.isSome_iff_exists.mp (growWindow_isSome bc i spread)
          obtain ⟨ws, lni⟩ := p
          simp only [hp] at h
          cases hrest : scanLoop bc spread fuel (i + lni + 1) with
          | none => simp only [hrest] at h; cases h
          | some rest =>
              simp only [hrest] at h
              obtain rfl : (ws, i, i + lni + 1) :: rest = tr := by
                simpa using h
              by_cases hkr : k < i + lni + 1
              · exact ⟨(ws, i, i + lni + 1), List.mem_cons_self _ _, hkr⟩
              · obtain ⟨p, hpmem, hpk⟩ :=
                  ih (i + lni + 1) rest hrest k (by omega) hk hkz
                exact ⟨p, List.mem_cons_of_mem _ hpmem, hpk⟩
      · omega

lemma triplesOf_covers {bc : List ℕ} {spread numBins k : ℕ}
    (hlen : bc.length = numBins) (hk : k < numBins) (hz : bc.getD k 0 ≠ 0) :
    ∃ p ∈ triplesOf bc spread numBins, k < p.2.2 := by
  cases spread with
  | zero => exact ⟨(bc.getD k 0, k, k + 1), triplesOf_zero_covers hk hz, Nat.lt_succ_self k⟩
  | succ n =>
      obtain ⟨tr, htr⟩ :=
        Option.isSome_iff_exists.mp (complexityScan_isSome bc (n + 1))
      have heq : triplesOf bc (n + 1) numBins = tr := by
        rw [triplesOf, if_neg (by omega), htr]
        rfl
      rw [heq]
      exact scanLoop_covers bc (n + 1) (bc.length + 1) 0 tr htr k
        (by omega) (by omega) hz

lemma rightEdges_length_epochOfTriples (t0 bin minT0 : ℚ)
    (triples : List (ℕ × ℕ × ℕ)) :
    (epochOfTriples t0 bin minT0 triples).rightEdges.length = triples.length := by
  rw [rightEdges_epochOfTriples]
  simp

lemma epoch_right_edge_exists {t0 bin : ℚ} (hbin : 0 < bin) {bc : List ℕ}
    {numBins : ℕ} (hlen : bc.length = numBins) {k : ℕ} (hk : k < numBins)
    (hz : bc.getD k 0 ≠ 0) (spread : ℕ) (minT0 : ℚ) :
    ∃ e ∈ (epochOfTriples t0 bin minT0 (triplesOf bc spread numBins)).rightEdges,
      t0 + (k : ℚ) * bin < e := by
  obtain ⟨p, hpmem, hpk⟩ := triplesOf_covers hlen hk hz
  refine ⟨t0 + (p.2.2 : ℚ) * bin - bin / 2, ?_, ?_⟩
  · rw [rightEdges_epochOfTriples]
    exact List.mem_map_of_mem _ hpmem
  · have h1 : (k:ℚ) + 1 ≤ (p.2.2 : ℚ) := by exact_mod_cast hpk
    have h2 : ((k:ℚ) + 1) * bin ≤ (p.2.2 : ℚ) * bin :=
      mul_le_mul_of_nonneg_right h1 (le_of_lt hbin)
    nlinarith [h2, hbin]

lemma epoch_searchsorted_lt {ep : Epoch} {t : ℚ}
    (hlen : ep.rightEdges.length = ep.complexity.length)
    (h : ∃ e ∈ ep.rightEdges, t < e) :
    searchsortedL ep.rightEdges t < ep.complexity.length := by
  obtain ⟨e, he, hte⟩ := h
  have hne : ¬ ((fun e => decide (e < t)) e = true) := by
    show ¬ (decide (e < t) = true)
    rw [decide_eq_true_eq]
    exact not_lt.mpr (le_of_lt hte)
  have hcount := @countP_lt_length_of_exists ep.rightEdges
    (fun e => decide (e < t)) ⟨e, he, hne⟩
  rw [searchsortedL, ← hlen]
  exact hcount

/-- C10: if every spike lies on the sampling grid (`t = t_start + k * bin_size`
with the spike inside `[t_start, t_stop)`) and the streams agree on
`t_start`/`t_stop`, then every spike lies strictly below some interval right
edge of the complexity epoch, so the `searchsorted` lookup of
`detect_synchrofacts` produces an index strictly below the number of
intervals: the per-spike complexity lookup never indexes out of bounds. -/
theorem C10_annotation_lookup_safe (sts : List SpikeTrain) (rate : ℚ)
    (spread : ℕ) (t0 T : ℚ) (hrate : 0 < rate)
    (hstart : ∀ s ∈ sts, s.t_start = t0)
    (hstop : ∀ s ∈ sts, s.t_stop = T)
    (hgrid : ∀ s ∈ sts, ∀ t ∈ s.times,
      (∃ k : ℕ, t = t0 + (k : ℚ) * (1 / rate)) ∧ t < T) :
    ∀ s ∈ sts, ∀ t ∈ s.times,
      (∃ e ∈ (preciseCore sts rate spread).rightEdges, t < e) ∧
      searchsortedL (preciseCore sts rate spread).rightEdges t
        < (preciseCore sts rate spread).complexity.length := by
  intro s hs t ht
  obtain ⟨hd, tl, rfl⟩ : ∃ hd tl, sts = hd :: tl := by
    cases sts with
    | nil => cases hs
    | cons hd tl => exact ⟨hd, tl, rfl⟩
  obtain ⟨⟨k, hkt⟩, hkT⟩ := hgrid s hs t ht
  have hbin : (0:ℚ) < 1 / rate := by positivity
  have hkN : k < (⌈(T - t0) / (1 / rate)⌉).toNat := by
    have h' : t0 + (k:ℚ) * (1 / rate) < T := by
      rw [← hkt]
      exact hkT
    have hklt : (k : ℚ) < (T - t0) / (1 / rate) := by
      rw [lt_div_iff₀ hbin]
      linarith
    have hceil : ((T - t0) / (1 / rate))
        ≤ ((⌈(T - t0) / (1 / rate)⌉ : ℤ) : ℚ) := Int.le_ceil _
    have hint : (k : ℤ) < ⌈(T - t0) / (1 / rate)⌉ := by
      exact_mod_cast lt_of_lt_of_le hklt hceil
    omega
  have hbidx : binIdx t0 (1 / rate) t = (k : ℤ) := by
    rw [binIdx, hkt]
    have hdiv : (t0 + (k:ℚ) * (1 / rate) - t0) / (1 / rate) = (k:ℚ) := by
      field_simp
      ring
    rw [hdiv]
    exact Int.floor_natCast k
  have hbz := bincountOf_getD_pos hs ht hbidx hkN
  have hcore : preciseCore (hd :: tl) rate spread
      = epochOfTriples t0 (1 / rate) (minTStart (hd :: tl))
          (triplesOf (bincountOf (hd :: tl) t0 (1 / rate)
              ((⌈(T - t0) / (1 / rate)⌉).toNat)) spread
            ((⌈(T - t0) / (1 / rate)⌉).toNat)) := by
    simp only [preciseCore]
    rw [hstart hd (List.mem_cons_self _ _), hstop hd (List.mem_cons_self _ _)]
  rw [hcore]
  have hedge :
      ∃ e ∈ (epochOfTriples t0 (1 / rate) (minTStart (hd :: tl))
          (triplesOf (bincountOf (hd :: tl) t0 (1 / rate)
              ((⌈(T - t0) / (1 / rate)⌉).toNat)) spread
            ((⌈(T - t0) / (1 / rate)⌉).toNat))).rightEdges, t < e := by
    rw [hkt]
    exact epoch_right_edge_exists hbin (bincountOf_length _ _ _ _) hkN hbz spread _
  refine ⟨hedge, ?_⟩
  refine epoch_searchsorted_lt ?_ hedge
  rw [rightEdges_length_epochOfTriples, complexity_length_epochOfTriples]

/-- Witness for C10 at a concrete grid-aligned input. -/
theorem C10_witness :
    searchsortedL (preciseCore [⟨[0], 0, 1⟩] 1 1).rightEdges 0
      < (preciseCore [⟨[0], 0, 1⟩] 1 1).complexity.length := by
  have h := C10_annotation_lookup_safe [⟨[0], 0, 1⟩] 1 1 0 1 (by norm_num)
    (by intro s hs; rw [List.mem_singleton] at hs; rw [hs])
    (by intro s hs; rw [List.mem_singleton] at hs; rw [hs])
    (by
      intro s hs t ht
      rw [List.mem_singleton] at hs
      subst hs
      rw [List.mem_singleton] at ht
      subst ht
      exact ⟨⟨0, by norm_num⟩, by norm_num⟩)
    ⟨[0], 0, 1⟩ (List.mem_singleton.mpr rfl) 0 (List.mem_singleton.mpr rfl)
  exact h.2

end Elephant
